import Mathlib

/-!
Shallow embedding of src/pbc/dft/numint.py: periodic-boundary-condition
numerical-integration kernels (periodic AO evaluation, complex density
evaluation, complex XC potential-matrix evaluation) plus the k-point
adapter class.

Machine floats are modelled as exact rationals; complex numbers are
modelled as pairs of rationals so that every definition is executable.
The external real-arithmetic contraction primitives of the host library
(pyscf.dft.numint, not part of the packaged source) are modelled from
the spec, as marked in their doc comments.
-/

/-- Complex scalar as a pair of rationals (real part, imaginary part),
modelling numpy complex128 entries exactly. -/
@[ext]
structure CQ where
  re : ℚ
  im : ℚ
deriving DecidableEq

instance : Zero CQ := ⟨⟨0, 0⟩⟩

instance : Add CQ := ⟨fun a b => ⟨a.re + b.re, a.im + b.im⟩⟩

instance : One CQ := ⟨⟨1, 0⟩⟩

instance : Mul CQ :=
  ⟨fun a b => ⟨a.re * b.re - a.im * b.im, a.re * b.im + a.im * b.re⟩⟩

/-- Embedding of a real scalar as a complex scalar. -/
def CQ.ofQ (q : ℚ) : CQ := ⟨q, 0⟩

/-- Complex conjugation. -/
def CQ.conj (z : CQ) : CQ := ⟨z.re, -z.im⟩

@[simp] theorem CQ.add_re (a b : CQ) : (a + b).re = a.re + b.re := rfl

@[simp] theorem CQ.add_im (a b : CQ) : (a + b).im = a.im + b.im := rfl

@[simp] theorem CQ.zero_re : (0 : CQ).re = 0 := rfl

@[simp] theorem CQ.zero_im : (0 : CQ).im = 0 := rfl

@[simp] theorem CQ.one_re : (1 : CQ).re = 1 := rfl

@[simp] theorem CQ.one_im : (1 : CQ).im = 0 := rfl

@[simp] theorem CQ.mul_re (a b : CQ) :
    (a * b).re = a.re * b.re - a.im * b.im := rfl

@[simp] theorem CQ.mul_im (a b : CQ) :
    (a * b).im = a.re * b.im + a.im * b.re := rfl

@[simp] theorem CQ.conj_re (z : CQ) : z.conj.re = z.re := rfl

@[simp] theorem CQ.conj_im (z : CQ) : z.conj.im = -z.im := rfl

@[simp] theorem CQ.ofQ_re (q : ℚ) : (CQ.ofQ q).re = q := rfl

@[simp] theorem CQ.ofQ_im (q : ℚ) : (CQ.ofQ q).im = 0 := rfl

instance : AddCommMonoid CQ where
  add := (· + ·)
  zero := 0
  add_assoc a b c := by ext <;> simp <;> ring
  zero_add a := by ext <;> simp
  add_zero a := by ext <;> simp
  add_comm a b := by ext <;> simp <;> ring
  nsmul := nsmulRec

@[simp] theorem CQ.conj_conj (z : CQ) : z.conj.conj = z := by
  ext <;> simp

theorem CQ.conj_add (a b : CQ) : (a + b).conj = a.conj + b.conj := by
  ext <;> simp <;> ring

theorem CQ.one_mul (z : CQ) : (1 : CQ) * z = z := by
  ext <;> simp

theorem CQ.re_sum {α : Type} (s : Finset α) (f : α → CQ) :
    (∑ x ∈ s, f x).re = ∑ x ∈ s, (f x).re := by
  induction s using Finset.cons_induction with
  | empty => rfl
  | cons a s ha ih => simp [Finset.sum_cons, ih]

theorem CQ.im_sum {α : Type} (s : Finset α) (f : α → CQ) :
    (∑ x ∈ s, f x).im = ∑ x ∈ s, (f x).im := by
  induction s using Finset.cons_induction with
  | empty => rfl
  | cons a s ha ih => simp [Finset.sum_cons, ih]

/-- Real (ngrids, nao) array: grid point index first, basis index second. -/
abbrev RArr (ng nao : ℕ) := Fin ng → Fin nao → ℚ

/-- Complex (ngrids, nao) array. -/
abbrev CArr (ng nao : ℕ) := Fin ng → Fin nao → CQ

/-- Real square matrix over basis functions. -/
abbrev RMat (nao : ℕ) := Fin nao → Fin nao → ℚ

/-- Complex square matrix over basis functions. -/
abbrev CMat (nao : ℕ) := Fin nao → Fin nao → CQ

variable {ng nao : ℕ}

/-- Elementwise real part of a complex array (numpy .real). -/
def reArr (a : CArr ng nao) : RArr ng nao := fun p i => (a p i).re

/-- Elementwise imaginary part of a complex array (numpy .imag). -/
def imArr (a : CArr ng nao) : RArr ng nao := fun p i => (a p i).im

/-- Cast of a real array to a complex array with zero imaginary part. -/
def toC (a : RArr ng nao) : CArr ng nao := fun p i => CQ.ofQ (a p i)

/-- Elementwise real part of a complex matrix (dm.real). -/
def dmRe (dm : CMat nao) : RMat nao := fun i j => (dm i j).re

/-- Elementwise imaginary part of a complex matrix (dm.imag). -/
def dmIm (dm : CMat nao) : RMat nao := fun i j => (dm i j).im

/-- Modelled from the spec: the external real-arithmetic AO-density
contraction primitive pyscf.dft.numint._dot_ao_dm (not under the packaged
source).  Per the spec it applies the density matrix to the ket so that a
subsequent bra contraction yields the diagonal of an Aᵗ·D·A-shaped
contraction: result[p,i] = Σ_j dm[i,j]·ao[p,j].  Sparsity-mask semantics
are owned by the collaborator; the all-shells-active (default mask) dense
case is modelled. -/
def dot_ao_dm (ao : RArr ng nao) (dm : RMat nao) : RArr ng nao :=
  fun p i => ∑ j, dm i j * ao p j

/-- The per-grid-point inner product numpy.einsum with both grid indices
shared: result[p] = Σ_i a[p,i]·b[p,i]. -/
def einsum (a b : RArr ng nao) : Fin ng → ℚ :=
  fun p => ∑ i, a p i * b p i

/-- Modelled from the spec: the external real-arithmetic AO-AO contraction
primitive pyscf.dft.numint._dot_ao_ao (not under the packaged source):
result[i,j] = Σ_p a[p,i]·b[p,j].  All-shells-active dense case. -/
def dot_ao_ao (a b : RArr ng nao) : RMat nao :=
  fun i j => ∑ p, a p i * b p j

/-- The four-real-contraction value-row combination of eval_rho
(src/pbc/dft/numint.py lines 125-137): split orbitals and density matrix
into real and imaginary parts, form the four partial contractions
c0_rr, c0_ri, c0_ir, c0_ii, and combine them per grid point as
Σ(Ai⊙Cri) + Σ(Ar⊙Crr) + Σ(Ai⊙Cir) − Σ(Ar⊙Cii). -/
def rho_combo (ao : CArr ng nao) (dm : CMat nao) : Fin ng → ℚ :=
  let ao_re := reArr ao
  let ao_im := imArr ao
  let c0_rr := dot_ao_dm ao_re (dmRe dm)
  let c0_ri := dot_ao_dm ao_im (dmRe dm)
  let c0_ir := dot_ao_dm ao_re (dmIm dm)
  let c0_ii := dot_ao_dm ao_im (dmIm dm)
  fun p => einsum ao_im c0_ri p + einsum ao_re c0_rr p +
    einsum ao_im c0_ir p - einsum ao_re c0_ii p

/-- The gradient-mode density rows of eval_rho (lines 92-123): row 0 is
the value combination on ao[0]; rows 1..3 are the same combination
recomputed on the gradient row ao[i] and doubled (*2 for +c.c.). -/
def rho_gga (ao : Fin 4 → CArr ng nao) (dm : CMat nao) :
    Fin 4 → Fin ng → ℚ :=
  fun i p => if i = 0 then rho_combo (ao 0) dm p
    else 2 * rho_combo (ao i) dm p

/-- Orbital-value array as passed to eval_rho / eval_mat: real or complex
(numpy dtype), value-only (2-dimensional) or with a leading gradient axis
of size 4 (3-dimensional, gradient mode). -/
inductive AOArr (ng nao : ℕ) where
  | realV : RArr ng nao → AOArr ng nao
  | realG : (Fin 4 → RArr ng nao) → AOArr ng nao
  | cplxV : CArr ng nao → AOArr ng nao
  | cplxG : (Fin 4 → CArr ng nao) → AOArr ng nao

/-- The dtype test ao[0].dtype == numpy.complex128. -/
def AOArr.isComplex : AOArr ng nao → Bool
  | .realV _ => false
  | .realG _ => false
  | .cplxV _ => true
  | .cplxG _ => true

/-- Density array: 1-dimensional (value only) or 2-dimensional with
4 rows (value plus three gradient components). -/
inductive RhoArr (ng : ℕ) where
  | one : (Fin ng → ℚ) → RhoArr ng
  | two : (Fin 4 → Fin ng → ℚ) → RhoArr ng

/-- numpy ndim of a density array. -/
def RhoArr.ndim : RhoArr ng → ℕ
  | .one _ => 1
  | .two _ => 2

/-- Modelled from the spec: pyscf.dft.numint.eval_rho, the molecular
real-arithmetic density routine (not under the packaged source), target
of the dead fallback branch of the periodic eval_rho.  On real-valued
orbital arrays it contracts the bra row against dm applied to the value
row, doubling the gradient rows; its real-arithmetic contraction
primitive does not accept complex input (modelled as none). -/
def numint_eval_rho (ao : AOArr ng nao) (dm : CMat nao) (isgga : Bool) :
    Option (RhoArr ng) :=
  match isgga, ao with
  | false, .realV a =>
      some (.one (einsum a (dot_ao_dm a (dmRe dm))))
  | true, .realG a =>
      some (.two (fun i p =>
        if i = 0 then einsum (a 0) (dot_ao_dm (a 0) (dmRe dm)) p
        else 2 * einsum (a i) (dot_ao_dm (a 0) (dmRe dm)) p))
  | _, _ => none

/-- The branch of eval_rho guarded by the always-true condition on line 88
of src/pbc/dft/numint.py: the complex four-real-contraction decomposition,
applied uniformly through .real/.imag projections (a real-valued input
array has zero imaginary part).  Mismatched shape/flag combinations
(which raise in numpy) are modelled as none. -/
def eval_rho_complexBranch (ao : AOArr ng nao) (dm : CMat nao)
    (isgga : Bool) : Option (RhoArr ng) :=
  match isgga, ao with
  | true, .cplxG a => some (.two (rho_gga a dm))
  | true, .realG a => some (.two (rho_gga (fun i => toC (a i)) dm))
  | false, .cplxV a => some (.one (rho_combo a dm))
  | false, .realV a => some (.one (rho_combo (toC a) dm))
  | _, _ => none

/-- eval_rho from src/pbc/dft/numint.py (lines 53-142).  The dtype test
on line 87 is commented out in the source and replaced by the literal
True on line 88, so the complex decomposition branch is always taken and
the delegation to the molecular routine on line 140 is dead code. -/
def eval_rho (ao : AOArr ng nao) (dm : CMat nao) (isgga : Bool) :
    Option (RhoArr ng) :=
  if true then eval_rho_complexBranch ao dm isgga
  else numint_eval_rho ao dm isgga

/-- Per-grid-point complex inner product
⟨A_p|D|A_p⟩ = Σ_i Σ_j conj(A[p,i])·D[i,j]·A[p,j]. -/
def braket (ao : CArr ng nao) (dm : CMat nao) : Fin ng → CQ :=
  fun p => ∑ i, ∑ j, (ao p i).conj * (dm i j * ao p j)

/-- Hermitian symmetrization mat + mat.T.conj() (line 215). -/
def matPlusDagger (m : CMat nao) : CMat nao :=
  fun i j => m i j + (m j i).conj

/-- Cast of a real matrix to a complex matrix with zero imaginary part. -/
def cmatOfR (m : RMat nao) : CMat nao := fun i j => CQ.ofQ (m i j)

/-- Modelled from the spec: pyscf.dft.numint.eval_mat, the plain
real-arithmetic molecular potential-matrix routine (not under the
packaged source).  Value mode weights the orbitals by 0.5·weight·vrho;
gradient mode additionally weights the three gradient rows by
rho[1:]·(weight·vsigma·2) and sums all four weighted rows; the bra row
is contracted against the weighted array and mat + matᵀ is returned.
Gradient mode asserts vsigma present and rho two-dimensional; shape/flag
mismatches (which raise in numpy) are modelled as none. -/
def numint_eval_mat (ao : AOArr ng nao) (weight : Fin ng → ℚ)
    (rho : RhoArr ng) (vrho : Fin ng → ℚ) (vsigma : Option (Fin ng → ℚ))
    (isgga : Bool) : Option (RMat nao) :=
  match isgga, ao with
  | false, .realV a =>
      let aow := fun p j => a p j * (1/2 * weight p * vrho p)
      let mat := dot_ao_ao a aow
      some (fun i j => mat i j + mat j i)
  | true, .realG a =>
      match vsigma, rho with
      | some vs, .two r =>
          let wv : Fin 4 → Fin ng → ℚ := fun n p =>
            if n = 0 then weight p * vrho p * (1/2)
            else r n p * (weight p * vs p * 2)
          let aow := fun p j => ∑ n, a n p j * wv n p
          let mat := dot_ao_ao (a 0) aow
          some (fun i j => mat i j + mat j i)
      | _, _ => none
  | _, _ => none

/-- The value-only complex branch of eval_mat (lines 197-215): weight the
real and imaginary orbital parts by 0.5·weight·vrho, form the real part
of the matrix from re·re plus im·im contractions and the imaginary part
from re·im minus im·re contractions, then symmetrize. -/
def eval_mat_cplx_value (a : CArr ng nao) (weight vrho : Fin ng → ℚ) :
    CMat nao :=
  let ao_re := reArr a
  let ao_im := imArr a
  let aow_re := fun p j => ao_re p j * (1/2 * weight p * vrho p)
  let aow_im := fun p j => ao_im p j * (1/2 * weight p * vrho p)
  let mat_re := fun i j =>
    dot_ao_ao ao_re aow_re i j + dot_ao_ao ao_im aow_im i j
  let mat_im := fun i j =>
    dot_ao_ao ao_re aow_im i j - dot_ao_ao ao_im aow_re i j
  matPlusDagger (fun i j => ⟨mat_re i j, mat_im i j⟩)

/-- The gradient-mode complex branch of eval_mat (lines 179-215):
wv[0] = weight·vrho·0.5, wv[1:] = rho[1:]·(weight·vsigma·2),
aow = Σ_n ao[n]·wv[n], then the same decomposition and symmetrization as
the value branch with ao[0] as the bra. -/
def eval_mat_cplx_gga (a : Fin 4 → CArr ng nao) (weight : Fin ng → ℚ)
    (r : Fin 4 → Fin ng → ℚ) (vrho vs : Fin ng → ℚ) : CMat nao :=
  let wv : Fin 4 → Fin ng → ℚ := fun n p =>
    if n = 0 then weight p * vrho p * (1/2)
    else r n p * (weight p * vs p * 2)
  let aow : CArr ng nao := fun p i => ∑ n, CQ.ofQ (wv n p) * a n p i
  let ao_re := reArr (a 0)
  let ao_im := imArr (a 0)
  let aow_re := reArr aow
  let aow_im := imArr aow
  let mat_re := fun i j =>
    dot_ao_ao ao_re aow_re i j + dot_ao_ao ao_im aow_im i j
  let mat_im := fun i j =>
    dot_ao_ao ao_re aow_im i j - dot_ao_ao ao_im aow_re i j
  matPlusDagger (fun i j => ⟨mat_re i j, mat_im i j⟩)

/-- eval_mat from src/pbc/dft/numint.py (lines 144-221).  Complex orbital
arrays take the four-real-contraction decomposition with Hermitian
symmetrization; gradient mode asserts vsigma present and rho
two-dimensional (line 180, modelled as none on failure).  Real orbital
arrays fall back to the molecular routine, which the source calls with
the literal keyword values vsigma=None, non0tab=None, isgga=False
(lines 218-221) instead of forwarding the arguments. -/
def eval_mat (ao : AOArr ng nao) (weight : Fin ng → ℚ) (rho : RhoArr ng)
    (vrho : Fin ng → ℚ) (vsigma : Option (Fin ng → ℚ)) (isgga : Bool) :
    Option (CMat nao) :=
  if ao.isComplex then
    match isgga, ao with
    | true, .cplxG a =>
        match vsigma, rho with
        | some vs, .two r => some (eval_mat_cplx_gga a weight r vrho vs)
        | _, _ => none
    | false, .cplxV a => some (eval_mat_cplx_value a weight vrho)
    | _, _ => none
  else
    (numint_eval_mat ao weight rho vrho none false).map cmatOfR

/-- Weighted overlap-like matrix Σ_p w_p · conj(A[p,i]) · A[p,j]. -/
def weightedOverlap (a : CArr ng nao) (w : Fin ng → ℚ) : CMat nao :=
  fun i j => ∑ p, CQ.ofQ (w p) * ((a p i).conj * a p j)

/-- Lattice metadata consumed by eval_ao: the per-direction image counts
cell.nimgs and the lattice vector matrix cell.h. -/
structure Cell where
  nimgs : Fin 3 → ℕ
  h : Fin 3 → Fin 3 → ℚ

/-- Python range(-n, n+1) as a list of integers. -/
def symRange (n : ℕ) : List ℤ :=
  (List.range (2 * n + 1)).map (fun (t : ℕ) => (t : ℤ) - (n : ℤ))

/-- Image-truncation test on line 36 of src/pbc/dft/numint.py:
i² + j² + k² ≤ (1/3)·(nimgs·nimgs), with the machine floats modelled as
exact rationals. -/
def imgCond (nimgs : Fin 3 → ℕ) (i j k : ℤ) : Prop :=
  ((i : ℚ)^2 + (j : ℚ)^2 + (k : ℚ)^2) ≤ 1/3 * ∑ d, ((nimgs d : ℚ))^2

instance (nimgs : Fin 3 → ℕ) (i j k : ℤ) : Decidable (imgCond nimgs i j k) :=
  decidable_of_iff
    (3 * (i ^ 2 + j ^ 2 + k ^ 2) ≤
      (nimgs 0 : ℤ) ^ 2 + (nimgs 1 : ℤ) ^ 2 + (nimgs 2 : ℤ) ^ 2)
    (by
      unfold imgCond
      rw [Fin.sum_univ_three]
      constructor
      · intro h
        have h' : ((3 * (i ^ 2 + j ^ 2 + k ^ 2) : ℤ) : ℚ) ≤
            (((nimgs 0 : ℤ) ^ 2 + (nimgs 1 : ℤ) ^ 2 + (nimgs 2 : ℤ) ^ 2 : ℤ) : ℚ) := by
          exact_mod_cast h
        push_cast at h'
        linarith
      · intro h
        have h' : ((3 * (i ^ 2 + j ^ 2 + k ^ 2) : ℤ) : ℚ) ≤
            (((nimgs 0 : ℤ) ^ 2 + (nimgs 1 : ℤ) ^ 2 + (nimgs 2 : ℤ) ^ 2 : ℤ) : ℚ) := by
          push_cast
          linarith
        exact_mod_cast h')

/-- The enumerated lattice image set Ts (lines 33-36): the triple list
comprehension runs i over range(-nimgs[0], nimgs[0]+1), j and k likewise,
keeping the triplets passing the truncation test. -/
def latticeTs (nimgs : Fin 3 → ℕ) : List (ℤ × ℤ × ℤ) :=
  (symRange (nimgs 0)).flatMap (fun i =>
    (symRange (nimgs 1)).flatMap (fun j =>
      ((symRange (nimgs 2)).filter (fun k => decide (imgCond nimgs i j k))).map
        (fun k => (i, j, k))))

/-- Components of an integer triplet, for forming h·T. -/
def tComp (t : ℤ × ℤ × ℤ) : Fin 3 → ℤ := fun d =>
  if d = 0 then t.1 else if d = 1 then t.2.1 else t.2.2

/-- eval_ao from src/pbc/dft/numint.py (lines 4-51), parametric over the
external real-space evaluator aoF (pyscf.dft.numint.eval_ao, an external
collaborator producing a real array indexed by ι from shifted grid
coordinates) and over cexp, the complex exponential θ ↦ exp(i·θ) used for
the Bloch phase.  A missing k-point is replaced by the zero vector
(line 30); each image translation T contributes
exp(i·k·(h·T)) · aoF(coords − h·T) to the accumulated complex output. -/
def eval_ao {ι : Type} {n : ℕ} (cell : Cell) (coords : Fin n → Fin 3 → ℚ)
    (kpt : Option (Fin 3 → ℚ)) (cexp : ℚ → CQ)
    (aoF : (Fin n → Fin 3 → ℚ) → ι → ℚ) : ι → CQ :=
  let k : Fin 3 → ℚ := kpt.getD (fun _ => 0)
  fun idx =>
    ((latticeTs cell.nimgs).map (fun T =>
      let L : Fin 3 → ℚ := fun r => ∑ c, cell.h r c * (tComp T c : ℚ)
      cexp (∑ r, k r * L r) *
        CQ.ofQ (aoF (fun p d => coords p d - L d) idx))).sum

/-- Failure raised by the unimplemented adapter entry points. -/
inductive PbcErr where
  | notImplemented
deriving DecidableEq

/-- The k-point adapter class _NumInt (lines 224-261): holds one k-point
value (or none for the zero-momentum point). -/
structure NumInt where
  kpt : Option (Fin 3 → ℚ)

/-- _NumInt.eval_rho2 (lines 240-241): raises NotImplementedError
unconditionally, before any computation. -/
def NumInt.eval_rho2 {Mol AO DM NT : Type} {ng : ℕ} (self : NumInt)
    (mol : Mol) (ao : AO) (dm : DM) (non0tab : Option NT) (isgga : Bool) :
    Except PbcErr (RhoArr ng) :=
  .error .notImplemented

/-- _NumInt.nr_uks (lines 253-255): raises NotImplementedError
unconditionally, before any computation. -/
def NumInt.nr_uks {Mol Grids XId CId DMs V : Type} (self : NumInt)
    (mol : Mol) (grids : Grids) (x_id : XId) (c_id : CId) (dms : DMs)
    (hermi : ℕ) (max_memory : ℕ) : Except PbcErr V :=
  .error .notImplemented

/-! Theorems settling the claims. -/

/-- C9: for every input, the unrestricted adapter entry point nr_uks and
its fast-density alternative eval_rho2 fail immediately with an explicit
not-implemented error; neither ever returns a value. -/
theorem numInt_not_implemented_paths {Mol AO DM NT Grids XId CId DMs V : Type}
    {ng : ℕ} (self : NumInt) (mol : Mol) (ao : AO) (dm : DM)
    (non0tab : Option NT) (isgga : Bool) (grids : Grids) (x_id : XId)
    (c_id : CId) (dms : DMs) (hermi max_memory : ℕ) :
    (NumInt.eval_rho2 self mol ao dm non0tab isgga
        = (Except.error PbcErr.notImplemented : Except PbcErr (RhoArr ng))) ∧
    (∀ v : RhoArr ng,
        NumInt.eval_rho2 self mol ao dm non0tab isgga ≠ Except.ok v) ∧
    (NumInt.nr_uks self mol grids x_id c_id dms hermi max_memory
        = (Except.error PbcErr.notImplemented : Except PbcErr V)) ∧
    (∀ v : V,
        (NumInt.nr_uks self mol grids x_id c_id dms hermi max_memory :
          Except PbcErr V) ≠ Except.ok v) := by
  refine ⟨rfl, ?_, rfl, ?_⟩ <;> exact fun v h => Except.noConfusion h

/-- C10: eval_rho always computes through the four-real-contraction
complex decomposition branch, for every input including real-valued
orbital arrays; the delegation to the molecular real-arithmetic density
routine is unreachable because the branch condition is the literal True. -/
theorem eval_rho_always_complex_path {ng nao : ℕ} (ao : AOArr ng nao)
    (dm : CMat nao) (isgga : Bool) (aR : RArr ng nao) :
    eval_rho ao dm isgga = eval_rho_complexBranch ao dm isgga ∧
    eval_rho (AOArr.realV aR) dm false
      = some (RhoArr.one (rho_combo (toC aR) dm)) :=
  ⟨rfl, rfl⟩

/-- C7: in gradient mode, row 0 of the density returned by eval_rho is the
four-term combination on the value row ao[0] with no factor 2, and each
gradient row i ∈ {1,2,3} is exactly 2 times the same four-term combination
recomputed with the gradient row ao[i] in place of ao[0]. -/
theorem eval_rho_gga_rows {ng nao : ℕ} (a : Fin 4 → CArr ng nao)
    (dm : CMat nao) (p : Fin ng) :
    eval_rho (AOArr.cplxG a) dm true = some (RhoArr.two (rho_gga a dm)) ∧
    rho_gga a dm 0 p = rho_combo (a 0) dm p ∧
    rho_gga a dm 1 p = 2 * rho_combo (a 1) dm p ∧
    rho_gga a dm 2 p = 2 * rho_combo (a 2) dm p ∧
    rho_gga a dm 3 p = 2 * rho_combo (a 3) dm p :=
  ⟨rfl, rfl, rfl, rfl, rfl⟩

/-- C3 counterexample: with nimgs = (0,2,2), the triplet (1,0,0) satisfies
the sum-of-squares criterion 1 ≤ (1/3)·8, yet it is not in the image set
enumerated by eval_ao, because the comprehension also restricts each
component to range(-nimgs[d], nimgs[d]+1); so membership is not decided
by the sum-of-squares criterion alone. -/
theorem latticeTs_not_sum_of_squares_only :
    imgCond (fun d => if d = 0 then 0 else 2) 1 0 0 ∧
    ((1 : ℤ), (0 : ℤ), (0 : ℤ)) ∉ latticeTs (fun d => if d = 0 then 0 else 2) := by
  decide

/-- Characterization of membership in Python range(-n, n+1). -/
theorem mem_symRange {n : ℕ} {a : ℤ} : a ∈ symRange n ↔ |a| ≤ (n : ℤ) := by
  unfold symRange
  rw [List.mem_map, abs_le]
  constructor
  · rintro ⟨t, ht, rfl⟩
    rw [List.mem_range] at ht
    omega
  · intro h
    refine ⟨(a + n).toNat, ?_, ?_⟩
    · rw [List.mem_range]; omega
    · omega

/-- C1: the value-only density evaluator returns, at each grid point,
exactly the four-term real combination
Σ(Ai⊙Cri) + Σ(Ar⊙Crr) + Σ(Ai⊙Cir) − Σ(Ar⊙Cii) of the four real partial
contractions, and this value equals the real part of ⟨A_p|D|A_p⟩ for
every complex orbital array and every (possibly non-Hermitian) complex
density matrix; the output is real-valued by construction. -/
theorem eval_rho_value_is_re_braket {ng nao : ℕ} (ao : CArr ng nao)
    (dm : CMat nao) (p : Fin ng) :
    eval_rho (AOArr.cplxV ao) dm false
      = some (RhoArr.one (rho_combo ao dm)) ∧
    rho_combo ao dm p =
      einsum (imArr ao) (dot_ao_dm (imArr ao) (dmRe dm)) p +
      einsum (reArr ao) (dot_ao_dm (reArr ao) (dmRe dm)) p +
      einsum (imArr ao) (dot_ao_dm (reArr ao) (dmIm dm)) p -
      einsum (reArr ao) (dot_ao_dm (imArr ao) (dmIm dm)) p ∧
    rho_combo ao dm p = (braket ao dm p).re := by
  refine ⟨rfl, rfl, ?_⟩
  simp only [rho_combo, braket, einsum, dot_ao_dm, reArr, imArr, dmRe, dmIm]
  rw [CQ.re_sum]
  simp only [Finset.mul_sum]
  rw [← Finset.sum_add_distrib, ← Finset.sum_add_distrib,
    ← Finset.sum_sub_distrib]
  refine Finset.sum_congr rfl (fun i _ => ?_)
  rw [CQ.re_sum]
  rw [← Finset.sum_add_distrib, ← Finset.sum_add_distrib,
    ← Finset.sum_sub_distrib]
  refine Finset.sum_congr rfl (fun j _ => ?_)
  simp only [CQ.mul_re, CQ.mul_im, CQ.conj_re, CQ.conj_im]
  ring

/-- The symmetrization mat + mat.T.conj() is Hermitian entrywise. -/
theorem matPlusDagger_hermitian {nao : ℕ} (m : CMat nao) (i j : Fin nao) :
    matPlusDagger m i j = (matPlusDagger m j i).conj := by
  unfold matPlusDagger
  ext <;> simp <;> ring

/-- C2: whenever eval_mat is invoked with complex orbital values and
returns a matrix, the returned matrix M is exactly Hermitian entrywise
(M[i,j] equals the complex conjugate of M[j,i]), because both complex
branches return mat plus the conjugate transpose of mat. -/
theorem eval_mat_complex_hermitian {ng nao : ℕ} (ao : AOArr ng nao)
    (weight : Fin ng → ℚ) (rho : RhoArr ng) (vrho : Fin ng → ℚ)
    (vsigma : Option (Fin ng → ℚ)) (isgga : Bool) (M : CMat nao)
    (hc : ao.isComplex = true)
    (hM : eval_mat ao weight rho vrho vsigma isgga = some M)
    (i j : Fin nao) :
    M i j = (M j i).conj := by
  cases ao with
  | realV a => exact absurd hc (by simp [AOArr.isComplex])
  | realG a => exact absurd hc (by simp [AOArr.isComplex])
  | cplxV a =>
    cases isgga with
    | false =>
      injection hM with h
      subst h
      simp only [eval_mat_cplx_value]
      exact matPlusDagger_hermitian _ i j
    | true => exact Option.noConfusion hM
  | cplxG a =>
    cases isgga with
    | false => exact Option.noConfusion hM
    | true =>
      cases vsigma with
      | none => exact Option.noConfusion hM
      | some vs =>
        cases rho with
        | one r => exact Option.noConfusion hM
        | two r =>
          injection hM with h
          subst h
          simp only [eval_mat_cplx_gga]
          exact matPlusDagger_hermitian _ i j

/-- Concrete orbital array for the C2 witness. -/
def c2Ao : CArr 1 1 := fun _ _ => ⟨1, 1⟩

/-- Concrete matrix returned by eval_mat at the C2 witness input. -/
def c2M : CMat 1 := eval_mat_cplx_value c2Ao (fun _ => 1) (fun _ => 1)

/-- Witness for C2: at a concrete complex input, eval_mat returns a
matrix and that matrix is Hermitian. -/
theorem eval_mat_complex_hermitian_witness : c2M 0 0 = (c2M 0 0).conj :=
  eval_mat_complex_hermitian (AOArr.cplxV c2Ao) (fun _ => 1)
    (RhoArr.one (fun _ => 0)) (fun _ => 1) none false c2M rfl rfl 0 0

/-- C8: with complex orbital values in gradient mode, eval_mat fails its
assertion exactly when vsigma is absent or the density array is not
2-dimensional; when both preconditions hold, no assertion fires and a
matrix is returned. -/
theorem eval_mat_gga_assert_iff {ng nao : ℕ} (a : Fin 4 → CArr ng nao)
    (weight : Fin ng → ℚ) (rho : RhoArr ng) (vrho : Fin ng → ℚ)
    (vsigma : Option (Fin ng → ℚ)) :
    eval_mat (AOArr.cplxG a) weight rho vrho vsigma true = none ↔
      vsigma = none ∨ rho.ndim ≠ 2 := by
  cases vsigma with
  | none => exact iff_of_true rfl (Or.inl rfl)
  | some vs =>
    cases rho with
    | one r =>
      exact iff_of_true rfl (Or.inr (by simp [RhoArr.ndim]))
    | two r =>
      refine iff_of_false ?_ ?_
      · intro h
        have hs : (eval_mat (AOArr.cplxG a) weight (RhoArr.two r) vrho
            (some vs) true).isSome = true := rfl
        rw [h] at hs
        exact Bool.noConfusion hs
      · rintro (h | h)
        · exact Option.noConfusion h
        · exact h rfl

/-- C6: in value-only mode with a constant potential derivative vrho = c,
eval_mat returns exactly c times the weighted overlap-like matrix
Σ_p w_p · conj(A_p) · A_pᵗ: the internal 0.5 weighting combines with the
final mat + matᴴ symmetrization to leave no net extra factor. -/
theorem eval_mat_const_vrho_overlap {ng nao : ℕ} (a : CArr ng nao)
    (weight : Fin ng → ℚ) (rho : RhoArr ng) (vsigma : Option (Fin ng → ℚ))
    (c : ℚ) :
    eval_mat (AOArr.cplxV a) weight rho (fun _ => c) vsigma false =
      some (fun i j => CQ.ofQ c * weightedOverlap a weight i j) := by
  show some (eval_mat_cplx_value a weight (fun _ => c)) =
    some (fun i j => CQ.ofQ c * weightedOverlap a weight i j)
  refine congrArg some ?_
  funext i j
  ext
  · simp only [eval_mat_cplx_value, matPlusDagger, dot_ao_ao, reArr, imArr,
      weightedOverlap, CQ.add_re, CQ.add_im, CQ.conj_re, CQ.conj_im,
      CQ.mul_re, CQ.mul_im, CQ.ofQ_re, CQ.ofQ_im, CQ.re_sum, CQ.im_sum,
      zero_mul, mul_zero, sub_zero, add_zero, neg_neg, neg_sub]
    rw [Finset.mul_sum]
    rw [← Finset.sum_add_distrib, ← Finset.sum_add_distrib,
      ← Finset.sum_add_distrib]
    refine Finset.sum_congr rfl (fun p _ => ?_)
    ring
  · simp only [eval_mat_cplx_value, matPlusDagger, dot_ao_ao, reArr, imArr,
      weightedOverlap, CQ.add_re, CQ.add_im, CQ.conj_re, CQ.conj_im,
      CQ.mul_re, CQ.mul_im, CQ.ofQ_re, CQ.ofQ_im, CQ.re_sum, CQ.im_sum,
      zero_mul, mul_zero, sub_zero, add_zero, neg_neg, neg_sub]
    rw [Finset.mul_sum]
    rw [← Finset.sum_sub_distrib, ← Finset.sum_sub_distrib,
      ← Finset.sum_add_distrib]
    refine Finset.sum_congr rfl (fun p _ => ?_)
    ring

/-- C5: with image counts all zero (a single periodic image, the zero
translation) and kpt absent, eval_ao returns exactly the real-space
evaluator output at the unshifted coordinates, cast to complex with
identically zero imaginary part, the phase being exp(0) = 1. -/
theorem eval_ao_gamma_single_image {ι : Type} {n : ℕ} (cell : Cell)
    (coords : Fin n → Fin 3 → ℚ) (cexp : ℚ → CQ)
    (aoF : (Fin n → Fin 3 → ℚ) → ι → ℚ)
    (h0 : cell.nimgs = fun _ => 0) (hexp : cexp 0 = 1) :
    eval_ao cell coords none cexp aoF
      = fun idx => CQ.ofQ (aoF coords idx) := by
  funext idx
  have hTs : latticeTs cell.nimgs = [(0, 0, 0)] := by rw [h0]; decide
  simp only [eval_ao, hTs, Option.getD, tComp, ite_self, Int.cast_zero,
    mul_zero, Finset.sum_const_zero, sub_zero, List.map_cons, List.map_nil,
    List.sum_cons, List.sum_nil, add_zero, hexp, CQ.one_mul]

/-- Concrete cell for the C5 witness: zero image counts. -/
def c5Cell : Cell := ⟨fun _ => 0, fun _ _ => 7⟩

/-- Concrete grid coordinates for the C5 witness. -/
def c5Coords : Fin 1 → Fin 3 → ℚ := fun _ _ => 5

/-- Concrete external real-space evaluator for the C5 witness. -/
def c5AoF : (Fin 1 → Fin 3 → ℚ) → Fin 1 → ℚ := fun cs _ => cs 0 0 + 3

/-- Witness for C5: at a concrete zero-image cell with kpt absent and a
phase function satisfying exp(0) = 1, eval_ao equals the complexified
external evaluator output at the unshifted coordinates. -/
theorem eval_ao_gamma_single_image_witness :
    eval_ao c5Cell c5Coords none (fun _ => 1) c5AoF
      = fun idx => CQ.ofQ (c5AoF c5Coords idx) :=
  eval_ao_gamma_single_image c5Cell c5Coords (fun _ => 1) c5AoF rfl rfl

/-- Concrete gradient-mode real orbital array for C4. -/
def c4Ao : Fin 4 → RArr 1 1 := fun _ _ _ => 1

/-- Concrete 2-dimensional density array for C4. -/
def c4Rho : RhoArr 1 := RhoArr.two (fun _ _ => 1)

/-- C4 (code bug): with real-valued orbital values in gradient mode, the
fallback of eval_mat does not delegate to the molecular routine on the
same inputs: the source passes the literal keyword values vsigma=None,
non0tab=None, isgga=False (lines 218-221) instead of forwarding the
arguments, so the gradient-mode call fails (shape mismatch inside the
molecular routine, modelled as none) on an input where the molecular
routine invoked with the same weight, rho, vrho, vsigma and isgga
returns a matrix. -/
theorem eval_mat_real_fallback_drops_args :
    eval_mat (AOArr.realG c4Ao) (fun _ => 1) c4Rho (fun _ => 1)
      (some (fun _ => 1)) true = none ∧
    (numint_eval_mat (AOArr.realG c4Ao) (fun _ => 1) c4Rho (fun _ => 1)
      (some (fun _ => 1)) true).isSome = true :=
  ⟨rfl, rfl⟩

/-- C3 amended: the image set enumerated by eval_ao consists of exactly
the integer triplets (i,j,k) that satisfy the per-component bounds
|i| ≤ nimgs[0], |j| ≤ nimgs[1], |k| ≤ nimgs[2] in addition to the
sum-of-squares criterion i²+j²+k² ≤ (1/3)·(nimgs·nimgs). -/
theorem latticeTs_mem_iff (nimgs : Fin 3 → ℕ) (t : ℤ × ℤ × ℤ) :
    t ∈ latticeTs nimgs ↔
      (|t.1| ≤ (nimgs 0 : ℤ) ∧ |t.2.1| ≤ (nimgs 1 : ℤ) ∧
        |t.2.2| ≤ (nimgs 2 : ℤ)) ∧
      imgCond nimgs t.1 t.2.1 t.2.2 := by
  obtain ⟨i, j, k⟩ := t
  simp only [latticeTs, List.mem_flatMap, List.mem_map, List.mem_filter,
    decide_eq_true_eq, Prod.mk.injEq, mem_symRange]
  constructor
  · rintro ⟨a, ha, b, hb, c, ⟨hc, hcond⟩, rfl, rfl, rfl⟩
    exact ⟨⟨ha, hb, hc⟩, hcond⟩
  · rintro ⟨⟨hi, hj, hk⟩, hcond⟩
    exact ⟨i, hi, j, hj, k, ⟨hk, hcond⟩, rfl, rfl, rfl⟩
